import Mathlib

/-!
Shallow embedding of the Scoremilk Prize Wheel spin engine and participant
ordering policy, together with proofs checking the claims of the specification.

The two application variants are modelled side by side:
* variant A is `src/App.tsx` (raffle title, 19 s spin, win sound 800 ms early);
* variant B is `src/unnamed/part_000` (explicit returning phase, 12 s spin).

JS strings are modelled as `List Char`, JS numbers as `ℚ` (exact arithmetic),
except for the ease-out-exponential curve of the main spin, which needs a real
exponential and is modelled over `ℝ`.
-/

namespace PrizeWheel

/-- Participant display names: JS strings modelled as character lists. -/
abbrev Name := List Char

/-- JS `String.prototype.toLowerCase`, restricted to the ASCII letters that the
core-name policy can produce. -/
def lowerName (s : Name) : Name := s.map Char.toLower

/-- JS `String.prototype.trim`: strip leading and trailing whitespace. -/
def jsTrim (s : Name) : Name :=
  ((s.dropWhile Char.isWhitespace).reverse.dropWhile Char.isWhitespace).reverse

/-- Function `getCoreName` from `src/App.tsx` lines 8-14: keep only the alphabetic
characters (the replace call with regex `[^a-zA-Z]`); if none remain, fall back to
the trimmed original name. An empty input short-circuits to the empty name. -/
def getCoreName (name : Name) : Name :=
  if name = [] then []
  else
    let alphabeticOnly := name.filter Char.isAlpha
    if alphabeticOnly = [] then jsTrim name else alphabeticOnly

/-- Function `removeWinnerEntries` from `src/App.tsx` lines 626-638: given the
display name of the winner (nullable), drop every roster entry whose core name
matches the core name of the winner case-insensitively. -/
def removeWinnerEntries (participants : List Name) (winnerName : Option Name) :
    List Name :=
  match winnerName with
  | none => participants
  | some w =>
    if w = [] then participants
    else
      let coreName := getCoreName w
      if coreName = [] then participants
      else participants.filter
        (fun p => decide (lowerName (getCoreName p) ≠ lowerName coreName))

/-- Index of the last roster entry whose core name matches `core`
case-insensitively: the `participants.forEach` loop of `addParticipant`
(`src/App.tsx` lines 299-307) keeps overwriting `lastSimilarIndex`, so the
final value is the greatest matching index. -/
def lastMatchIdx (core : Name) : List Name → Option Nat
  | [] => none
  | p :: ps =>
    match lastMatchIdx core ps with
    | some k => some (k + 1)
    | none =>
      if lowerName (getCoreName p) = lowerName core then some 0 else none

/-- Function `addParticipant` from `src/App.tsx` lines 290-320: trim the name, drop it
when empty or a case-insensitive exact duplicate, otherwise splice it in right
after the last entry sharing its core name, or append it at the end. -/
def addParticipant (participants : List Name) (name : Name) : List Name :=
  let newName := jsTrim name
  if newName = [] then participants
  else if participants.any (fun p => decide (lowerName p = lowerName newName)) then
    participants
  else
    let newCoreName := getCoreName newName
    match (if newCoreName = [] then none else lastMatchIdx newCoreName participants) with
    | some i => participants.take (i + 1) ++ newName :: participants.drop (i + 1)
    | none => participants ++ [newName]

/-- Angular width of one wheel segment: `360 / numParticipants`. -/
def segmentAngle (n : ℕ) : ℚ := 360 / n

/-- Angle of the center of the winning segment:
`segmentAngle * winnerIndex + segmentAngle / 2`. -/
def winnerAngle (n i : ℕ) : ℚ := segmentAngle n * i + segmentAngle n / 2

/-- JS truncation toward zero, as used by the `%` operator. -/
def jsTrunc (q : ℚ) : ℤ := if 0 ≤ q then ⌊q⌋ else ⌈q⌉

/-- The JS remainder operator `a % b` on numbers: `a - b * trunc (a / b)`. -/
def jsRem (a b : ℚ) : ℚ := a - b * (jsTrunc (a / b) : ℚ)

/-- Code formula `targetStopAngle = (360 - winnerAngle + 360) % 360` from `handleSpin`. -/
def targetStopAngle (n i : ℕ) : ℚ := jsRem (360 - winnerAngle n i + 360) 360

/-- Mathematical (floor-based) modulus on rationals, used to state the
`mod 360` and `mod segmentAngle` reductions of the spec. -/
def mathMod (a b : ℚ) : ℚ := a - b * (⌊a / b⌋ : ℚ)

/-- The bounded random jitter of `handleSpin`:
`Math.random() * segmentAngle * 0.8 - segmentAngle * 0.4`, where `r` is the
value drawn from the random source (so `0 ≤ r < 1`). -/
def randomOffset (n : ℕ) (r : ℚ) : ℚ :=
  r * segmentAngle n * (4 / 5) - segmentAngle n * (2 / 5)

/-- The fixed minimum spin: `12 * 360` degrees. -/
def fullRotations : ℚ := 12 * 360

/-- Code formula `targetRotation = fullRotations + targetStopAngle + randomOffset`. -/
def targetRotation (n i : ℕ) (r : ℚ) : ℚ :=
  fullRotations + targetStopAngle n i + randomOffset n r

/-- Spin duration of variant A (`src/App.tsx` line 522): 19000 ms. -/
def spinDuration : ℚ := 19000

/-- Win-sound trigger time of variant A (`src/App.tsx` line 529):
`duration - 800`. -/
def soundTriggerTime : ℚ := spinDuration - 800

/-- Per-frame tick detection of `handleSpin` (`src/App.tsx` lines 563-571),
run over a list of successive frame rotation values: a tick fires on a frame
exactly when `Math.floor(currentRotation / segmentAngle)` exceeds
`Math.floor(lastTickAngle / segmentAngle)`, and `lastTickAngle` is updated to
the current rotation on every frame. Returns the total tick count. -/
def tickSim (seg : ℚ) : ℚ → List ℚ → ℕ
  | _, [] => 0
  | lastTickAngle, r :: rs =>
    (if ⌊lastTickAngle / seg⌋ < ⌊r / seg⌋ then 1 else 0) + tickSim seg r rs

/-- A frame sequence is fine (for segment width `seg`) when it is monotone
non-decreasing and each step crosses at most one segment boundary. -/
def fineFrom (seg : ℚ) : ℚ → List ℚ → Prop
  | _, [] => True
  | lastA, r :: rs =>
    lastA ≤ r ∧ ⌊r / seg⌋ ≤ ⌊lastA / seg⌋ + 1 ∧ fineFrom seg r rs

/-- Number of segment boundaries crossed by a monotone rotation path from
angle `s` to angle `e`. -/
def boundaryCrossings (seg s e : ℚ) : ℤ := ⌊e / seg⌋ - ⌊s / seg⌋

/-- Win-sound firing of the variant A frame loop (`src/App.tsx` lines 532-557)
over a list of elapsed frame times: a frame first fires the win sound when
`elapsedTime >= soundTriggerTime` and the `soundTriggered` flag is still
false, then the run ends at the first frame with `elapsedTime >= duration`.
A stopped spin is a run whose frame list ends before any completion frame.
Returns how many times the win sound fired. -/
def winFires : List ℚ → Bool → ℕ
  | [], _ => 0
  | t :: ts, triggered =>
    let fire := decide (soundTriggerTime ≤ t) && !triggered
    let c := if fire then 1 else 0
    if spinDuration ≤ t then c else c + winFires ts (triggered || fire)

/-- A history entry `{ winnerName, raffleTitle, timestamp }`. -/
structure WinnerRecord where
  winnerName : Name
  raffleTitle : Name
  timestamp : ℤ
deriving DecidableEq

/-- Observable engine state of variant A (`src/App.tsx`). -/
structure AppStateA where
  wheelParticipants : List Name
  winner : Option Name
  isSpinning : Bool
  rotation : ℚ
  preSpinRotation : ℚ
  tickCount : ℕ
  raffleTitle : Name
  winnerHistory : List WinnerRecord
  raffleError : Option Name
deriving DecidableEq

/-- The validation message set by `handleSpin` in variant A. -/
def raffleErrorMsg : Name := "Raffle name is required".toList

/-- Synchronous effect of the variant A `handleSpin` (`src/App.tsx` lines
372-378, 380-381, 508-509): an empty (after trimming) raffle title sets the
error and returns before the roster-size and phase guards; a roster smaller
than 2 or an in-flight spin is a no-op; otherwise the spin starts, capturing
`preSpinRotation`, clearing the error and the winner. -/
def handleSpinA (s : AppStateA) : AppStateA :=
  if jsTrim s.raffleTitle = [] then { s with raffleError := some raffleErrorMsg }
  else if s.wheelParticipants.length < 2 || s.isSpinning then s
  else { s with
    preSpinRotation := s.rotation
    raffleError := none
    isSpinning := true
    winner := none }

/-- Observable engine state of variant B (`src/unnamed/part_000`). -/
structure AppStateB where
  wheelParticipants : List Name
  winner : Option Name
  isSpinning : Bool
  isReturning : Bool
  rotation : ℚ
  preSpinRotation : ℚ
  tickCount : ℕ
  winnerHistory : List WinnerRecord
deriving DecidableEq

/-- Synchronous effect of the variant B `handleSpin` (`src/unnamed/part_000`
lines 419-422, 667-668): a no-op unless idle with at least 2 entrants. -/
def handleSpinB (s : AppStateB) : AppStateB :=
  if s.wheelParticipants.length < 2 || s.isSpinning || s.isReturning then s
  else { s with
    preSpinRotation := s.rotation
    isSpinning := true
    winner := none }

/-- Easing `easeOutCubic(x) = 1 - (1 - x)^3` of the return phase. -/
def easeOutCubic (x : ℚ) : ℚ := 1 - (1 - x) ^ 3

/-- The fixed return animation duration: 1000 ms. -/
def returnDuration : ℚ := 1000

/-- Rotation reported by the return animation `animateReturn` at elapsed time
`e`: at `e >= returnDuration` the rotation snaps exactly to the target
(`preSpinRotation`), before that it is eased from the rotation at stop time. -/
def animateWheelToStartRot (startReturnRotation targetReturnRotation e : ℚ) : ℚ :=
  if returnDuration ≤ e then targetReturnRotation
  else
    startReturnRotation +
      (targetReturnRotation - startReturnRotation) * easeOutCubic (e / returnDuration)

/-- Synchronous effect of the variant B `handleStopSpin` (`src/unnamed/part_000`
lines 785-795): a no-op unless spinning and not already returning; otherwise
the spin animation is cancelled and the returning phase starts. -/
def handleStopSpinB (s : AppStateB) : AppStateB :=
  if !s.isSpinning || s.isReturning then s
  else { s with isReturning := true }

/-- Completion of the return animation (`src/unnamed/part_000` lines 761-771
plus the `onComplete` of `handleStopSpin`): the rotation snaps to the stored
`preSpinRotation`, the returning phase ends and the spin state is cleared. -/
def finishReturnB (s : AppStateB) : AppStateB :=
  { s with
    rotation := s.preSpinRotation
    isReturning := false
    isSpinning := false }

/-- One Fisher-Yates swap `[a[i], a[j]] = [a[j], a[i]]`, with both reads
performed before both writes. -/
def listSwap {α : Type} (d : α) (l : List α) (i j : ℕ) : List α :=
  (l.set i (l.getD j d)).set j (l.getD i d)

/-- The Fisher-Yates loop of `shuffleWheel` (`src/App.tsx` lines 361-370):
`for (let i = length - 1; i > 0; i--) swap(i, floor(random() * (i + 1)))`,
where `rand i` is the value the random source yields at loop index `i`. -/
def fisherYatesAux {α : Type} (d : α) (rand : ℕ → ℚ) : ℕ → List α → List α
  | 0, l => l
  | i + 1, l =>
    fisherYatesAux d rand i (listSwap d l (i + 1) (⌊rand (i + 1) * (i + 2)⌋).toNat)

/-- Function `shuffleWheel`: run the Fisher-Yates loop from index `length - 1`. -/
def shuffleWheel {α : Type} (d : α) (rand : ℕ → ℚ) (l : List α) : List α :=
  fisherYatesAux d rand (l.length - 1) l

/-- A concrete variant-B state that is mid-spin, used to exercise the spin
guard on a concrete input. -/
def spinningStateB : AppStateB where
  wheelParticipants := ["Ann".toList, "Bob".toList]
  winner := none
  isSpinning := true
  isReturning := false
  rotation := 5
  preSpinRotation := 0
  tickCount := 2
  winnerHistory := []

/-- A concrete idle variant-B state with two entrants, used to exercise a
full spin-stop-return cycle on a concrete input. -/
def idleStateB : AppStateB where
  wheelParticipants := ["Ann".toList, "Bob".toList]
  winner := none
  isSpinning := false
  isReturning := false
  rotation := 30
  preSpinRotation := 0
  tickCount := 0
  winnerHistory := []

/-- A concrete variant-A state whose raffle title is blank, used to exercise
the title validation on a concrete input. -/
def blankTitleStateA : AppStateA where
  wheelParticipants := []
  winner := none
  isSpinning := true
  rotation := 7
  preSpinRotation := 0
  tickCount := 3
  raffleTitle := "   ".toList
  winnerHistory := []
  raffleError := none

/-- Easing `easeOutExpo(x) = x === 1 ? 1 : 1 - 2^(-10x)` of the main spin
(`src/App.tsx` line 526), over the reals. -/
noncomputable def easeOutExpo (x : ℝ) : ℝ :=
  if x = 1 then 1 else 1 - (2 : ℝ) ^ ((-10 : ℝ) * x)

/-- Rotation reported by the spin frame loop at elapsed time `e` for a spin
from `startRotation` to `target` over duration `d` (`src/App.tsx` lines
532-574): completion snaps to the exact target, earlier frames interpolate
with `easeOutExpo`. -/
noncomputable def spinRotationAt (startRotation target d e : ℝ) : ℝ :=
  if d ≤ e then target
  else startRotation + (target - startRotation) * easeOutExpo (e / d)

/-! ### Helper lemmas on the string utilities -/

theorem jsTrim_nil : jsTrim ([] : Name) = [] := rfl

theorem ne_nil_of_jsTrim_ne_nil {w : Name} (h : jsTrim w ≠ []) : w ≠ [] := by
  intro e
  exact h (by simp [e, jsTrim])

theorem getCoreName_ne_nil {w : Name} (h : jsTrim w ≠ []) : getCoreName w ≠ [] := by
  have hw : w ≠ [] := ne_nil_of_jsTrim_ne_nil h
  simp only [getCoreName, if_neg hw]
  by_cases hf : w.filter Char.isAlpha = []
  · rw [if_pos hf]
    exact h
  · rw [if_neg hf]
    exact hf

theorem dropWhile_dropWhile {α : Type} (p : α → Bool) (l : List α) :
    (l.dropWhile p).dropWhile p = l.dropWhile p := by
  induction l with
  | nil => rfl
  | cons a l ih =>
    by_cases h : p a
    · simp [List.dropWhile_cons, h, ih]
    · simp [List.dropWhile_cons, h]

theorem jsTrim_prefix_dropWhile (s : Name) :
    jsTrim s <+: s.dropWhile Char.isWhitespace := by
  have h1 : (s.dropWhile Char.isWhitespace).reverse.dropWhile Char.isWhitespace <:+
      (s.dropWhile Char.isWhitespace).reverse := List.dropWhile_suffix _
  rw [← List.reverse_suffix]
  simpa [jsTrim] using h1

theorem dropWhile_head_false {α : Type} {p : α → Bool} {l : List α} {a : α}
    {t : List α} (h : l.dropWhile p = a :: t) : p a = false := by
  induction l with
  | nil => simp at h
  | cons b l ih =>
    by_cases hb : p b
    · rw [List.dropWhile_cons, if_pos hb] at h
      exact ih h
    · rw [List.dropWhile_cons, if_neg hb] at h
      injection h with h1 h2
      subst h1
      simpa using hb

theorem jsTrim_dropWhile (s : Name) :
    (jsTrim s).dropWhile Char.isWhitespace = jsTrim s := by
  cases hn : jsTrim s with
  | nil => rfl
  | cons a rest =>
    have hpre := jsTrim_prefix_dropWhile s
    rw [hn] at hpre
    obtain ⟨r, hr⟩ := hpre
    have hds : s.dropWhile Char.isWhitespace = a :: (rest ++ r) := by
      rw [← hr]
      simp
    have ha : Char.isWhitespace a = false := dropWhile_head_false hds
    rw [List.dropWhile_cons, if_neg (by simp [ha])]

theorem jsTrim_idem (s : Name) : jsTrim (jsTrim s) = jsTrim s := by
  show (((jsTrim s).dropWhile Char.isWhitespace).reverse.dropWhile
      Char.isWhitespace).reverse = jsTrim s
  rw [jsTrim_dropWhile]
  have hrev : (jsTrim s).reverse =
      (s.dropWhile Char.isWhitespace).reverse.dropWhile Char.isWhitespace := by
    simp [jsTrim]
  rw [hrev, dropWhile_dropWhile]
  simp [jsTrim]

theorem getCoreName_trim_ne_nil {name : Name} (h : jsTrim name ≠ []) :
    getCoreName (jsTrim name) ≠ [] := by
  apply getCoreName_ne_nil
  rw [jsTrim_idem]
  exact h

/-! ### Helper lemmas on `lastMatchIdx` -/

theorem lastMatchIdx_none_iff (core : Name) (l : List Name) :
    lastMatchIdx core l = none ↔
      ∀ p ∈ l, lowerName (getCoreName p) ≠ lowerName core := by
  induction l with
  | nil => simp [lastMatchIdx]
  | cons p ps ih =>
    cases h : lastMatchIdx core ps with
    | none =>
      by_cases hp : lowerName (getCoreName p) = lowerName core
      · simp only [lastMatchIdx, h, if_pos hp]
        constructor
        · intro hh
          exact absurd hh (by simp)
        · intro hall
          exact (hall p (List.mem_cons_self p ps) hp).elim
      · simp only [lastMatchIdx, h, if_neg hp]
        constructor
        · intro _ q hq
          rcases List.mem_cons.mp hq with rfl | hq2
          · exact hp
          · exact ih.mp h q hq2
        · intro _
          trivial
    | some k =>
      have hex : ¬∀ q ∈ ps, lowerName (getCoreName q) ≠ lowerName core := by
        rw [← ih]
        simp [h]
      simp only [lastMatchIdx, h]
      constructor
      · intro hh
        exact absurd hh (by simp)
      · intro hh
        exact absurd (fun q hq => hh q (List.mem_cons_of_mem _ hq)) hex

theorem lastMatchIdx_some_spec (core : Name) (l : List Name) (k : ℕ)
    (h : lastMatchIdx core l = some k) :
    ∃ p, l[k]? = some p ∧ lowerName (getCoreName p) = lowerName core ∧
      ∀ m q, k < m → l[m]? = some q →
        lowerName (getCoreName q) ≠ lowerName core := by
  induction l generalizing k with
  | nil => simp [lastMatchIdx] at h
  | cons p ps ih =>
    cases hps : lastMatchIdx core ps with
    | none =>
      by_cases hp : lowerName (getCoreName p) = lowerName core
      · simp only [lastMatchIdx, hps, if_pos hp] at h
        obtain rfl : (0 : ℕ) = k := Option.some.inj h
        refine ⟨p, by simp, hp, ?_⟩
        intro m q hm hq
        obtain ⟨m', rfl⟩ : ∃ m', m = m' + 1 := by
          cases m with
          | zero => omega
          | succ m' => exact ⟨m', rfl⟩
        rw [List.getElem?_cons_succ] at hq
        exact (lastMatchIdx_none_iff core ps).mp hps q (List.getElem?_mem hq)
      · simp only [lastMatchIdx, hps, if_neg hp] at h
        exact absurd h (by simp)
    | some j =>
      simp only [lastMatchIdx, hps] at h
      obtain rfl : j + 1 = k := Option.some.inj h
      obtain ⟨q0, hq0, hq0m, hafter⟩ := ih j hps
      refine ⟨q0, by simpa using hq0, hq0m, ?_⟩
      intro m q hm hq
      obtain ⟨m', rfl⟩ : ∃ m', m = m' + 1 := by
        cases m with
        | zero => omega
        | succ m' => exact ⟨m', rfl⟩
      rw [List.getElem?_cons_succ] at hq
      exact hafter m' q (by omega) hq

/-! ### Claim C5 -/

/-- C5: `removeWinnerEntries` removes exactly those roster entries whose core
name equals the core name of the winner case-insensitively, preserving the order of
the remaining entries; removing `"$10 Lucas"` from
`["Ann", "Lucas", "$10 Lucas", "Lucas2", "Bob"]` leaves `["Ann", "Bob"]`. -/
theorem c5_remove_winner_core :
    (∀ (l : List Name) (w : Name), jsTrim w ≠ [] →
      removeWinnerEntries l (some w) =
        l.filter (fun p =>
          decide (lowerName (getCoreName p) ≠ lowerName (getCoreName w))) ∧
      (removeWinnerEntries l (some w)).Sublist l) ∧
    removeWinnerEntries
        ["Ann".toList, "Lucas".toList, "$10 Lucas".toList, "Lucas2".toList,
          "Bob".toList] (some "$10 Lucas".toList) =
      ["Ann".toList, "Bob".toList] := by
  constructor
  · intro l w h
    have hw : w ≠ [] := ne_nil_of_jsTrim_ne_nil h
    have hc : getCoreName w ≠ [] := getCoreName_ne_nil h
    refine ⟨?_, ?_⟩
    · simp only [removeWinnerEntries, if_neg hw, if_neg hc]
    · simp only [removeWinnerEntries, if_neg hw, if_neg hc]
      exact List.filter_sublist _
  · decide

/-- Witness for C5 at the concrete roster of the specification. -/
theorem c5_remove_winner_core_witness :
    jsTrim "$10 Lucas".toList ≠ [] ∧
    removeWinnerEntries
        ["Ann".toList, "Lucas".toList, "$10 Lucas".toList, "Lucas2".toList,
          "Bob".toList] (some "$10 Lucas".toList) =
      List.filter (fun p =>
          decide (lowerName (getCoreName p) ≠
            lowerName (getCoreName "$10 Lucas".toList)))
        ["Ann".toList, "Lucas".toList, "$10 Lucas".toList, "Lucas2".toList,
          "Bob".toList] :=
  ⟨by decide, (c5_remove_winner_core.1 _ _ (by decide)).1⟩

/-! ### Claim C6 -/

/-- C6: `addParticipant` inserts the trimmed name immediately after the last
existing entry whose core name matches the core name of the candidate
case-insensitively, and appends to the end when no entry matches; adding
`"Lucas"`, then `"$10 Lucas"`, then `"Lucas2"` to an empty roster yields
`["Lucas", "$10 Lucas", "Lucas2"]`. -/
theorem c6_add_participant :
    (∀ (l : List Name) (name : Name), jsTrim name ≠ [] →
      (∀ p ∈ l, lowerName p ≠ lowerName (jsTrim name)) →
      ((∀ p ∈ l,
          lowerName (getCoreName p) ≠ lowerName (getCoreName (jsTrim name))) ∧
        addParticipant l name = l ++ [jsTrim name]) ∨
      (∃ k p, l[k]? = some p ∧
        lowerName (getCoreName p) = lowerName (getCoreName (jsTrim name)) ∧
        (∀ m q, k < m → l[m]? = some q →
          lowerName (getCoreName q) ≠ lowerName (getCoreName (jsTrim name))) ∧
        addParticipant l name = l.take (k + 1) ++ jsTrim name :: l.drop (k + 1))) ∧
    addParticipant
        (addParticipant (addParticipant [] "Lucas".toList) "$10 Lucas".toList)
        "Lucas2".toList =
      ["Lucas".toList, "$10 Lucas".toList, "Lucas2".toList] := by
  constructor
  · intro l name h1 h2
    have hc : getCoreName (jsTrim name) ≠ [] := getCoreName_trim_ne_nil h1
    have hany : l.any (fun p => decide (lowerName p = lowerName (jsTrim name))) = false := by
      rw [List.any_eq_false]
      intro p hp
      simpa using h2 p hp
    cases hm : lastMatchIdx (getCoreName (jsTrim name)) l with
    | none =>
      left
      refine ⟨(lastMatchIdx_none_iff _ _).mp hm, ?_⟩
      simp [addParticipant, h1, hany, hc, hm]
    | some k =>
      right
      obtain ⟨p, hp1, hp2, hp3⟩ := lastMatchIdx_some_spec _ _ _ hm
      refine ⟨k, p, hp1, hp2, hp3, ?_⟩
      simp [addParticipant, h1, hany, hc, hm]
  · decide

/-- Witness for C6: adding `"Bob"` to the roster `["Ann"]` (no core match)
appends it at the end. -/
theorem c6_add_participant_witness :
    jsTrim "Bob".toList ≠ [] ∧
    (((∀ p ∈ ["Ann".toList],
        lowerName (getCoreName p) ≠ lowerName (getCoreName (jsTrim "Bob".toList))) ∧
      addParticipant ["Ann".toList] "Bob".toList =
        ["Ann".toList] ++ [jsTrim "Bob".toList]) ∨
    (∃ k p, (["Ann".toList] : List Name)[k]? = some p ∧
      lowerName (getCoreName p) = lowerName (getCoreName (jsTrim "Bob".toList)) ∧
      (∀ m q, k < m → (["Ann".toList] : List Name)[m]? = some q →
        lowerName (getCoreName q) ≠ lowerName (getCoreName (jsTrim "Bob".toList))) ∧
      addParticipant ["Ann".toList] "Bob".toList =
        (["Ann".toList] : List Name).take (k + 1) ++
          jsTrim "Bob".toList :: (["Ann".toList] : List Name).drop (k + 1))) :=
  ⟨by decide, c6_add_participant.1 ["Ann".toList] "Bob".toList (by decide) (by decide)⟩

/-! ### Claim C3 -/

/-- C3: `spin()` is a no-op unless the engine is idle and the roster has at
least 2 entrants: with fewer than 2 entrants, or while spinning or returning,
it has no observable effect on rotation, rotation target, winner, tick count
or history, and calling it twice in immediate succession starts no second
spin (both variants are idempotent under immediate repetition). -/
theorem c3_spin_guard :
    (∀ s : AppStateB,
      s.wheelParticipants.length < 2 ∨ s.isSpinning = true ∨ s.isReturning = true →
      handleSpinB s = s) ∧
    (∀ s : AppStateB, handleSpinB (handleSpinB s) = handleSpinB s) ∧
    (∀ s : AppStateA,
      s.wheelParticipants.length < 2 ∨ s.isSpinning = true →
      (handleSpinA s).rotation = s.rotation ∧
      (handleSpinA s).preSpinRotation = s.preSpinRotation ∧
      (handleSpinA s).winner = s.winner ∧
      (handleSpinA s).tickCount = s.tickCount ∧
      (handleSpinA s).winnerHistory = s.winnerHistory ∧
      (handleSpinA s).isSpinning = s.isSpinning) ∧
    (∀ s : AppStateA, handleSpinA (handleSpinA s) = handleSpinA s) := by
  refine ⟨?_, ?_, ?_, ?_⟩
  · intro s hs
    rcases hs with h | h | h
    · simp [handleSpinB, h]
    · simp [handleSpinB, h]
    · simp [handleSpinB, h]
  · intro s
    by_cases h1 : s.wheelParticipants.length < 2
    · simp [handleSpinB, h1]
    by_cases h2 : s.isSpinning
    · simp [handleSpinB, h2]
    by_cases h3 : s.isReturning
    · simp [handleSpinB, h3]
    · simp [handleSpinB, h1, h2, h3]
  · intro s hs
    by_cases ht : jsTrim s.raffleTitle = []
    · simp [handleSpinA, ht]
    · rcases hs with h | h
      · simp [handleSpinA, ht, h]
      · simp [handleSpinA, ht, h]
  · intro s
    by_cases ht : jsTrim s.raffleTitle = []
    · simp [handleSpinA, ht]
    by_cases h1 : s.wheelParticipants.length < 2
    · simp [handleSpinA, ht, h1]
    by_cases h2 : s.isSpinning
    · simp [handleSpinA, ht, h2]
    · simp [handleSpinA, ht, h1, h2]

/-- Witness for C3: a concrete state that is already spinning is left
unchanged by a second `spin()` call. -/
theorem c3_spin_guard_witness :
    (spinningStateB.wheelParticipants.length < 2 ∨
      spinningStateB.isSpinning = true ∨ spinningStateB.isReturning = true) ∧
    handleSpinB spinningStateB = spinningStateB :=
  ⟨Or.inr (Or.inl (by decide)),
    c3_spin_guard.1 spinningStateB (Or.inr (Or.inl (by decide)))⟩

/-! ### Claim C10 -/

/-- C10: in the variant with raffle titles, `spin()` with a title that is
empty after trimming sets the "Raffle name is required" error and returns
without starting a spin, leaving every other state component unchanged; the
check runs before the roster-size and phase guards (the statement puts no
constraint on roster size or spin phase). -/
theorem c10_raffle_title_guard (s : AppStateA) (h : jsTrim s.raffleTitle = []) :
    handleSpinA s = { s with raffleError := some raffleErrorMsg } ∧
    (handleSpinA s).rotation = s.rotation ∧
    (handleSpinA s).winner = s.winner ∧
    (handleSpinA s).tickCount = s.tickCount ∧
    (handleSpinA s).winnerHistory = s.winnerHistory ∧
    (handleSpinA s).isSpinning = s.isSpinning := by
  refine ⟨?_, ?_, ?_, ?_, ?_, ?_⟩ <;> simp [handleSpinA, h]

/-- Witness for C10: a state that is mid-spin with an empty roster still gets
the raffle-title error set, showing the title check precedes the guards. -/
theorem c10_raffle_title_guard_witness :
    jsTrim blankTitleStateA.raffleTitle = [] ∧
    handleSpinA blankTitleStateA =
      { blankTitleStateA with raffleError := some raffleErrorMsg } :=
  ⟨by decide, (c10_raffle_title_guard blankTitleStateA (by decide)).1⟩

/-! ### Claim C4 -/

/-- C4: for every in-flight spin, `stop()` enters the returning phase and runs
the fixed 1 s ease-out-cubic return animation; on its completion the rotation
equals exactly the `preSpinRotation` captured when the spin started, the
winner is null, and the engine is back in the idle phase. The last conjunct
shows the return animation lands exactly on the stored `preSpinRotation` at
every elapsed time from the fixed 1000 ms duration onwards. -/
theorem c4_stop_returns_to_prespin (s : AppStateB) (r : ℚ)
    (hlen : 2 ≤ s.wheelParticipants.length) (hspin : s.isSpinning = false)
    (hret : s.isReturning = false) :
    (handleStopSpinB { handleSpinB s with rotation := r }).isReturning = true ∧
    (finishReturnB (handleStopSpinB { handleSpinB s with rotation := r })).rotation =
      s.rotation ∧
    (finishReturnB (handleStopSpinB { handleSpinB s with rotation := r })).winner =
      none ∧
    (finishReturnB (handleStopSpinB { handleSpinB s with rotation := r })).isSpinning =
      false ∧
    (finishReturnB (handleStopSpinB { handleSpinB s with rotation := r })).isReturning =
      false ∧
    (∀ e : ℚ, returnDuration ≤ e →
      animateWheelToStartRot r
        ({ handleSpinB s with rotation := r } : AppStateB).preSpinRotation e =
      s.rotation) := by
  have hguard : handleSpinB s =
      { s with preSpinRotation := s.rotation, isSpinning := true, winner := none } := by
    simp [handleSpinB, hspin, hret]
    omega
  rw [hguard]
  refine ⟨by simp [handleStopSpinB, hret],
    by simp [handleStopSpinB, finishReturnB, hret],
    by simp [handleStopSpinB, finishReturnB, hret],
    by simp [handleStopSpinB, finishReturnB, hret],
    by simp [handleStopSpinB, finishReturnB, hret], ?_⟩
  intro e he
  simp [animateWheelToStartRot, if_pos he]

/-- Witness for C4 at a concrete two-entrant state stopped mid-spin. -/
theorem c4_stop_returns_to_prespin_witness :
    2 ≤ idleStateB.wheelParticipants.length ∧
    (finishReturnB (handleStopSpinB
        { handleSpinB idleStateB with rotation := 4000 })).rotation =
      idleStateB.rotation :=
  ⟨by decide,
    (c4_stop_returns_to_prespin idleStateB 4000 (by decide) (by decide)
      (by decide)).2.1⟩

/-! ### Helper lemmas on the rotation-target arithmetic -/

theorem segmentAngle_pos {n : ℕ} (hn : 0 < n) : 0 < segmentAngle n := by
  have hq : (0 : ℚ) < n := by exact_mod_cast hn
  exact div_pos (by norm_num) hq

theorem winnerAngle_pos {n i : ℕ} (hn : 0 < n) : 0 < winnerAngle n i := by
  have hseg := segmentAngle_pos hn
  have h1 : 0 ≤ segmentAngle n * i := by positivity
  rw [winnerAngle]
  linarith

theorem winnerAngle_lt {n i : ℕ} (hn : 2 ≤ n) (hi : i < n) :
    winnerAngle n i < 360 := by
  have hq : (0 : ℚ) < n := by
    have : 0 < n := by omega
    exact_mod_cast this
  have hi2 : (i : ℚ) + 1 ≤ n := by exact_mod_cast hi
  rw [winnerAngle, segmentAngle]
  have hrw : 360 / (n : ℚ) * i + 360 / n / 2 = (360 * i + 180) / n := by
    field_simp
    ring
  rw [hrw, div_lt_iff hq]
  nlinarith

theorem targetStopAngle_eq {n i : ℕ} (hn : 2 ≤ n) (hi : i < n) :
    targetStopAngle n i = 360 - winnerAngle n i := by
  have h1 : 0 < winnerAngle n i := winnerAngle_pos (by omega)
  have h2 : winnerAngle n i < 360 := winnerAngle_lt hn hi
  have ha1 : (360 : ℚ) < 360 - winnerAngle n i + 360 := by linarith
  have ha2 : 360 - winnerAngle n i + 360 < 720 := by linarith
  have hnn : (0 : ℚ) ≤ (360 - winnerAngle n i + 360) / 360 := by positivity
  have hfl : ⌊(360 - winnerAngle n i + 360) / 360⌋ = 1 := by
    rw [Int.floor_eq_iff]
    constructor
    · rw [le_div_iff (by norm_num : (0:ℚ) < 360)]
      push_cast
      linarith
    · rw [div_lt_iff (by norm_num : (0:ℚ) < 360)]
      push_cast
      linarith
  rw [targetStopAngle, jsRem, jsTrunc, if_pos hnn, hfl]
  push_cast
  ring

theorem mathMod_eq_self {a b : ℚ} (h0 : 0 ≤ a) (hab : a < b) (hb : 0 < b) :
    mathMod a b = a := by
  have hfl : ⌊a / b⌋ = 0 := by
    rw [Int.floor_eq_iff]
    constructor
    · push_cast
      positivity
    · rw [div_lt_iff hb]
      push_cast
      linarith
  rw [mathMod, hfl]
  push_cast
  ring

/-! ### Claim C1 -/

/-- C1 counterexample: when the injected random source yields `0` (a value
`Math.random()` can return), the jitter equals `-0.4 * segmentAngle` exactly,
so its magnitude is not strictly less than `0.4 * segmentAngle` in each
direction, refuting the strict bound of the claim. -/
theorem c1_jitter_boundary :
    (0 : ℚ) ≤ 0 ∧ (0 : ℚ) < 1 ∧
    ¬ (-((2 / 5) * segmentAngle 2) < randomOffset 2 0) := by
  norm_num [randomOffset, segmentAngle]

/-- C1 (amended): for every roster size `n ≥ 2`, winner index `i < n` and
random-source value `0 ≤ r < 1`, the target rotation computed by `spin()`
equals `12*360 + ((360 - (segmentAngle*i + segmentAngle/2)) mod 360) +
jitter`; the final rotation places the center of the winning segment at exactly
the jitter angle past the fixed pointer (13 whole turns plus the jitter); and
the jitter lies in `[-0.4*segmentAngle, 0.4*segmentAngle)` — at least
`-0.4*segmentAngle` (attained exactly when the random source yields 0) and
strictly below `0.4*segmentAngle`. -/
theorem c1_target_rotation_amended (n i : ℕ) (r : ℚ) (hn : 2 ≤ n) (hi : i < n)
    (hr0 : 0 ≤ r) (hr1 : r < 1) :
    targetRotation n i r =
      12 * 360 + mathMod (360 - winnerAngle n i) 360 + randomOffset n r ∧
    targetRotation n i r + winnerAngle n i = 360 * 13 + randomOffset n r ∧
    -((2 / 5) * segmentAngle n) ≤ randomOffset n r ∧
    randomOffset n r < (2 / 5) * segmentAngle n := by
  have h1 : 0 < winnerAngle n i := winnerAngle_pos (by omega)
  have h2 : winnerAngle n i < 360 := winnerAngle_lt hn hi
  have hts : targetStopAngle n i = 360 - winnerAngle n i := targetStopAngle_eq hn hi
  have hmm : mathMod (360 - winnerAngle n i) 360 = 360 - winnerAngle n i :=
    mathMod_eq_self (by linarith) (by linarith) (by norm_num)
  have hseg : 0 < segmentAngle n := segmentAngle_pos (by omega)
  refine ⟨?_, ?_, ?_, ?_⟩
  · rw [targetRotation, fullRotations, hts, hmm]
  · rw [targetRotation, fullRotations, hts]
    ring
  · rw [randomOffset]
    have hpos : 0 ≤ r * segmentAngle n * (4 / 5) := by positivity
    linarith
  · rw [randomOffset]
    nlinarith

/-- Witness for C1 at `n = 4`, `i = 1`, `r = 1/2`. -/
theorem c1_target_rotation_witness :
    2 ≤ 4 ∧ 1 < 4 ∧ (0 : ℚ) ≤ 1 / 2 ∧ (1 : ℚ) / 2 < 1 ∧
    (targetRotation 4 1 (1 / 2) =
        12 * 360 + mathMod (360 - winnerAngle 4 1) 360 + randomOffset 4 (1 / 2) ∧
      targetRotation 4 1 (1 / 2) + winnerAngle 4 1 =
        360 * 13 + randomOffset 4 (1 / 2) ∧
      -((2 / 5) * segmentAngle 4) ≤ randomOffset 4 (1 / 2) ∧
      randomOffset 4 (1 / 2) < (2 / 5) * segmentAngle 4) :=
  ⟨by norm_num, by norm_num, by norm_num, by norm_num,
    c1_target_rotation_amended 4 1 (1 / 2) (by norm_num) (by norm_num)
      (by norm_num) (by norm_num)⟩

/-! ### Claim C2 -/

/-- C2 counterexample: the same monotone rotation path from 0 to 200 degrees
(segment width 90, hence two boundary crossings) yields 2 ticks when
simulated with a fine frame sequence but only 1 tick with a coarse one,
because a frame that crosses several boundaries increments the tick counter
once; tick totals are not resolution-invariant. -/
theorem c2_resolution_counterexample :
    tickSim 90 0 [200] = 1 ∧ tickSim 90 0 [100, 200] = 2 ∧
    tickSim 90 0 [200] ≠ tickSim 90 0 [100, 200] := by
  norm_num [tickSim]

/-- C2 (amended): one tick fires per frame in which
`floor(rotation/segmentAngle)` strictly increased; whenever every frame step
of a monotone frame sequence crosses at most one segment boundary, the total
tick count equals the number of distinct boundary crossings from the start
angle to the angle of the last frame. Coarse frame sequences that cross several
boundaries in a single step yield one tick for that step and so can
undercount. -/
theorem c2_tick_fine_resolution (seg : ℚ) (hseg : 0 < seg) :
    ∀ (frames : List ℚ) (s : ℚ), fineFrom seg s frames →
      (tickSim seg s frames : ℤ) = boundaryCrossings seg s (frames.getLastD s) := by
  intro frames
  induction frames with
  | nil =>
    intro s _
    simp [tickSim, boundaryCrossings]
  | cons r rs ih =>
    intro s hf
    obtain ⟨h1, h2, h3⟩ := hf
    have hquot : s / seg ≤ r / seg := by gcongr
    have hmono : ⌊s / seg⌋ ≤ ⌊r / seg⌋ := Int.floor_le_floor hquot
    have ihr := ih r h3
    rw [boundaryCrossings] at ihr ⊢
    rw [List.getLastD_cons]
    simp only [tickSim]
    by_cases hc : ⌊s / seg⌋ < ⌊r / seg⌋
    · rw [if_pos hc]
      push_cast
      omega
    · rw [if_neg hc]
      push_cast
      omega

/-- Witness for C2 at a concrete fine frame sequence crossing two
boundaries. -/
theorem c2_tick_fine_resolution_witness :
    (0 : ℚ) < 90 ∧ fineFrom 90 0 [50, 100, 150, 200] ∧
    (tickSim 90 0 [50, 100, 150, 200] : ℤ) =
      boundaryCrossings 90 0 ([(50 : ℚ), 100, 150, 200].getLastD 0) :=
  ⟨by norm_num, by norm_num [fineFrom],
    c2_tick_fine_resolution 90 (by norm_num) [50, 100, 150, 200] 0
      (by norm_num [fineFrom])⟩

/-! ### Claim C8 -/

theorem winFires_true (frames : List ℚ) : winFires frames true = 0 := by
  induction frames with
  | nil => simp [winFires]
  | cons t ts ih =>
    simp only [winFires]
    by_cases hd : spinDuration ≤ t
    · simp [hd]
    · simp [hd, ih]

/-- C8 counterexample: a spin whose frames reach 18300 ms of elapsed time and
is then stopped (no frame ever reaches the 19000 ms duration, so the spin
never completes) has already fired the win sound once — the win sound can
fire on a stopped spin, refuting "never on a stopped spin". -/
theorem c8_stopped_spin_sound :
    winFires [18300] false = 1 ∧ ∀ t ∈ [(18300 : ℚ)], t < spinDuration := by
  constructor
  · norm_num [winFires, soundTriggerTime, spinDuration]
  · intro t ht
    simp only [List.mem_singleton] at ht
    subst ht
    norm_num [spinDuration]

/-- C8 (amended): in variant A the win sound fires at most once per spin, and
exactly once on every completed spin (one whose frame sequence reaches the
19 s duration), at the first frame at or after `duration - 800 ms`; a spin
stopped before any frame reaches `duration - 800 ms` fires no win sound, but
a spin stopped after that threshold has already fired it. -/
theorem c8_win_sound_amended :
    (∀ (frames : List ℚ) (triggered : Bool), winFires frames triggered ≤ 1) ∧
    (∀ frames : List ℚ, (∃ t ∈ frames, spinDuration ≤ t) →
      winFires frames false = 1) ∧
    (∀ frames : List ℚ, (∀ t ∈ frames, t < soundTriggerTime) →
      winFires frames false = 0) := by
  refine ⟨?_, ?_, ?_⟩
  · intro frames
    induction frames with
    | nil => intro triggered; simp [winFires]
    | cons t ts ih =>
      intro triggered
      simp only [winFires]
      by_cases h1 : soundTriggerTime ≤ t
      · by_cases h2 : triggered = true
        · subst h2
          by_cases hd : spinDuration ≤ t
          · simp [hd]
          · simp [hd, winFires_true]
        · have h2f : triggered = false := by
            cases triggered
            · rfl
            · exact absurd rfl h2
          subst h2f
          by_cases hd : spinDuration ≤ t
          · simp [hd, h1]
          · simp [hd, h1, winFires_true]
      · by_cases hd : spinDuration ≤ t
        · simp [hd, h1]
        · simp [hd, h1]
          exact ih triggered
  · intro frames
    induction frames with
    | nil =>
      intro h
      simp at h
    | cons t ts ih =>
      intro h
      simp only [winFires]
      by_cases hd : spinDuration ≤ t
      · have h1 : soundTriggerTime ≤ t :=
          le_trans (by norm_num [soundTriggerTime, spinDuration]) hd
        simp [hd, h1]
      · have hex : ∃ u ∈ ts, spinDuration ≤ u := by
          rcases h with ⟨u, hu, hud⟩
          rcases List.mem_cons.mp hu with rfl | hu2
          · exact absurd hud hd
          · exact ⟨u, hu2, hud⟩
        by_cases h1 : soundTriggerTime ≤ t
        · simp [hd, h1, winFires_true]
        · simp [hd, h1, ih hex]
  · intro frames
    induction frames with
    | nil =>
      intro _
      simp [winFires]
    | cons t ts ih =>
      intro h
      have ht := h t (List.mem_cons_self t ts)
      have h1 : ¬ soundTriggerTime ≤ t := not_le.mpr ht
      have hd : ¬ spinDuration ≤ t := by
        intro hdd
        exact h1 (le_trans (by norm_num [soundTriggerTime, spinDuration]) hdd)
      simp [winFires, h1, hd, ih (fun u hu => h u (List.mem_cons_of_mem _ hu))]

/-- Witness for C8 at a concrete completed spin. -/
theorem c8_win_sound_witness :
    (∃ t ∈ [(10000 : ℚ), 19500], spinDuration ≤ t) ∧
    winFires [10000, 19500] false = 1 :=
  ⟨⟨19500, by simp, by norm_num [spinDuration]⟩,
    c8_win_sound_amended.2.1 [10000, 19500]
      ⟨19500, by simp, by norm_num [spinDuration]⟩⟩

/-! ### Helper lemmas for the Fisher-Yates shuffle -/

theorem cons_get_set_perm {α : Type} (x : α) :
    ∀ (t : List α) (k : ℕ) (hk : k < t.length),
      (t[k] :: t.set k x).Perm (x :: t) := by
  intro t
  induction t with
  | nil =>
    intro k hk
    simp at hk
  | cons y s ih =>
    intro k hk
    cases k with
    | zero =>
      simp only [List.getElem_cons_zero, List.set_cons_zero]
      exact List.Perm.swap x y s
    | succ k =>
      have hk2 : k < s.length := by simpa using hk
      simp only [List.getElem_cons_succ, List.set_cons_succ]
      exact ((List.Perm.swap y _ _).trans ((ih k hk2).cons y)).trans
        (List.Perm.swap x y s)

theorem set_get_self {α : Type} :
    ∀ (l : List α) (n : ℕ) (hn : n < l.length), l.set n l[n] = l := by
  intro l
  induction l with
  | nil =>
    intro n hn
    simp at hn
  | cons a t ih =>
    intro n hn
    cases n with
    | zero => simp
    | succ n =>
      have hn2 : n < t.length := by simpa using hn
      simp only [List.getElem_cons_succ, List.set_cons_succ]
      rw [ih n hn2]

theorem set_set_perm {α : Type} :
    ∀ (l : List α) (i j : ℕ) (hij : i < j) (hj : j < l.length),
      ((l.set i (l.get ⟨j, hj⟩)).set j
        (l.get ⟨i, lt_trans hij hj⟩)).Perm l := by
  intro l
  induction l with
  | nil =>
    intro i j hij hj
    simp at hj
  | cons a t ih =>
    intro i j hij hj
    cases i with
    | zero =>
      obtain ⟨j', rfl⟩ : ∃ j', j = j' + 1 := ⟨j - 1, by omega⟩
      have hj' : j' < t.length := by simpa using hj
      simp only [List.get_eq_getElem, List.getElem_cons_succ,
        List.getElem_cons_zero, List.set_cons_zero, List.set_cons_succ]
      exact cons_get_set_perm a t j' hj'
    | succ i' =>
      obtain ⟨j', rfl⟩ : ∃ j', j = j' + 1 := ⟨j - 1, by omega⟩
      have hij' : i' < j' := by omega
      have hj' : j' < t.length := by simpa using hj
      simp only [List.get_eq_getElem, List.getElem_cons_succ, List.set_cons_succ]
      exact ((ih i' j' hij' hj').cons a)

theorem listSwap_perm {α : Type} (d : α) (l : List α) (i j : ℕ)
    (hi : i < l.length) (hj : j < l.length) : (listSwap d l i j).Perm l := by
  rcases lt_trichotomy i j with h | h | h
  · rw [listSwap, List.getD_eq_getElem l d hj, List.getD_eq_getElem l d hi]
    have := set_set_perm l i j h hj
    simpa using this
  · subst h
    rw [listSwap, List.getD_eq_getElem l d hj, List.set_set, set_get_self l i hi]
  · rw [listSwap, List.getD_eq_getElem l d hj, List.getD_eq_getElem l d hi,
      List.set_comm _ _ _ (by omega)]
    have := set_set_perm l j i h hi
    simpa using this

theorem fisherYatesAux_perm {α : Type} (d : α) (rand : ℕ → ℚ)
    (hrand : ∀ k, 0 ≤ rand k ∧ rand k < 1) :
    ∀ (i : ℕ) (l : List α), i < l.length → (fisherYatesAux d rand i l).Perm l := by
  intro i
  induction i with
  | zero =>
    intro l _
    exact List.Perm.refl l
  | succ i ih =>
    intro l hl
    have hr := hrand (i + 1)
    have hjle : (⌊rand (i + 1) * ((i : ℚ) + 2)⌋).toNat ≤ i + 1 := by
      rw [Int.toNat_le]
      have hlt : rand (i + 1) * ((i : ℚ) + 2) < (i : ℚ) + 2 := by
        have h2 : (0 : ℚ) < (i : ℚ) + 2 := by positivity
        nlinarith [hr.1, hr.2]
      have hfl : ⌊rand (i + 1) * ((i : ℚ) + 2)⌋ < (i : ℤ) + 2 := by
        rw [Int.floor_lt]
        push_cast
        exact hlt
      omega
    have hjlt : (⌊rand (i + 1) * ((i : ℚ) + 2)⌋).toNat < l.length := by omega
    have hswap := listSwap_perm d l (i + 1) (⌊rand (i + 1) * ((i : ℚ) + 2)⌋).toNat
      hl hjlt
    have hlen : (listSwap d l (i + 1) (⌊rand (i + 1) * ((i : ℚ) + 2)⌋).toNat).length =
        l.length := by
      simp [listSwap]
    have hi2 : i < (listSwap d l (i + 1) (⌊rand (i + 1) * ((i : ℚ) + 2)⌋).toNat).length := by
      omega
    exact (ih _ hi2).trans hswap

/-! ### Claim C9 -/

/-- C9: for every wheel roster and every sequence of values in `[0, 1)` from
the random source, `shuffleWheel` produces a permutation of the input roster:
the same names with the same multiplicities, only possibly reordered. -/
theorem c9_shuffle_perm {α : Type} (d : α) (rand : ℕ → ℚ)
    (hrand : ∀ k, 0 ≤ rand k ∧ rand k < 1) (l : List α) :
    (shuffleWheel d rand l).Perm l := by
  rw [shuffleWheel]
  rcases Nat.eq_zero_or_pos l.length with h0 | hpos
  · have hnil : l = [] := List.length_eq_zero.mp h0
    subst hnil
    exact List.Perm.refl _
  · exact fisherYatesAux_perm d rand hrand _ l (by omega)

/-- Witness for C9 at a concrete three-name roster and the constant random
source `1/2`. -/
theorem c9_shuffle_perm_witness :
    (∀ k : ℕ, 0 ≤ (fun _ : ℕ => (1 : ℚ) / 2) k ∧
      (fun _ : ℕ => (1 : ℚ) / 2) k < 1) ∧
    (shuffleWheel ([] : Name) (fun _ : ℕ => (1 : ℚ) / 2)
        ["Ann".toList, "Bob".toList, "Cid".toList]).Perm
      ["Ann".toList, "Bob".toList, "Cid".toList] :=
  ⟨fun _ => ⟨by norm_num, by norm_num⟩,
    c9_shuffle_perm ([] : Name) (fun _ : ℕ => (1 : ℚ) / 2)
      (fun _ => ⟨by norm_num, by norm_num⟩)
      ["Ann".toList, "Bob".toList, "Cid".toList]⟩

/-! ### Helper lemmas on the spin easing curve -/

theorem easeOutExpo_nonneg {x : ℝ} (hx : 0 ≤ x) : 0 ≤ easeOutExpo x := by
  rw [easeOutExpo]
  split_ifs
  · norm_num
  · have h1 : (2 : ℝ) ^ ((-10 : ℝ) * x) ≤ 1 :=
      Real.rpow_le_one_of_one_le_of_nonpos (by norm_num) (by nlinarith)
    linarith

theorem easeOutExpo_le_one (x : ℝ) : easeOutExpo x ≤ 1 := by
  rw [easeOutExpo]
  split_ifs
  · exact le_refl 1
  · have h1 : 0 < (2 : ℝ) ^ ((-10 : ℝ) * x) :=
      Real.rpow_pos_of_pos (by norm_num) _
    linarith

theorem easeOutExpo_mono {x y : ℝ} (hxy : x ≤ y) (hy : y < 1) :
    easeOutExpo x ≤ easeOutExpo y := by
  have hx1 : x ≠ 1 := by linarith
  have hy1 : y ≠ 1 := ne_of_lt hy
  rw [easeOutExpo, easeOutExpo, if_neg hx1, if_neg hy1]
  have h1 : (2 : ℝ) ^ ((-10 : ℝ) * y) ≤ (2 : ℝ) ^ ((-10 : ℝ) * x) :=
    Real.rpow_le_rpow_of_exponent_le (by norm_num) (by linarith)
  linarith

theorem targetRotation_ge {n i : ℕ} {r : ℚ} (hn : 2 ≤ n) (hi : i < n)
    (hr0 : 0 ≤ r) : 390 ≤ targetRotation n i r := by
  have h2 : winnerAngle n i < 360 := winnerAngle_lt hn hi
  have hts : targetStopAngle n i = 360 - winnerAngle n i := targetStopAngle_eq hn hi
  have hseg : 0 < segmentAngle n := segmentAngle_pos (by omega)
  have hsegle : segmentAngle n ≤ 180 := by
    rw [segmentAngle]
    have hq : (2 : ℚ) ≤ n := by exact_mod_cast hn
    rw [div_le_iff (by linarith)]
    nlinarith
  have hoff : -((2 / 5) * segmentAngle n) ≤ randomOffset n r := by
    rw [randomOffset]
    have hpos : 0 ≤ r * segmentAngle n * (4 / 5) := by positivity
    linarith
  rw [targetRotation, fullRotations, hts]
  linarith

/-! ### Claim C7 -/

/-- C7: throughout a single spin phase the reported rotation is monotone
non-decreasing in elapsed time, and stays between the start rotation (the
rotation mod 360 captured at spin start, hence in `[0, 360)`) and the target
rotation computed for the spin — the wheel never moves backwards. -/
theorem c7_spin_monotone (n i : ℕ) (r : ℚ) (hn : 2 ≤ n) (hi : i < n)
    (hr0 : 0 ≤ r) (hr1 : r < 1) (s d : ℝ) (hs0 : 0 ≤ s) (hs1 : s < 360)
    (hd : 0 < d) :
    (∀ e1 e2 : ℝ, 0 ≤ e1 → e1 ≤ e2 →
      spinRotationAt s ((targetRotation n i r : ℚ) : ℝ) d e1 ≤
        spinRotationAt s ((targetRotation n i r : ℚ) : ℝ) d e2) ∧
    (∀ e : ℝ, 0 ≤ e →
      s ≤ spinRotationAt s ((targetRotation n i r : ℚ) : ℝ) d e ∧
      spinRotationAt s ((targetRotation n i r : ℚ) : ℝ) d e ≤
        ((targetRotation n i r : ℚ) : ℝ)) := by
  have htq : (390 : ℚ) ≤ targetRotation n i r := targetRotation_ge hn hi hr0
  have hT : s ≤ ((targetRotation n i r : ℚ) : ℝ) := by
    have hc : ((390 : ℚ) : ℝ) ≤ ((targetRotation n i r : ℚ) : ℝ) := by
      exact_mod_cast htq
    push_cast at hc
    linarith
  have hTs : 0 ≤ ((targetRotation n i r : ℚ) : ℝ) - s := by linarith
  have hbound : ∀ e : ℝ, 0 ≤ e →
      s ≤ spinRotationAt s ((targetRotation n i r : ℚ) : ℝ) d e ∧
      spinRotationAt s ((targetRotation n i r : ℚ) : ℝ) d e ≤
        ((targetRotation n i r : ℚ) : ℝ) := by
    intro e he
    rw [spinRotationAt]
    split_ifs with hde
    · exact ⟨hT, le_refl _⟩
    · have hx0 : 0 ≤ e / d := by positivity
      have hee := easeOutExpo_nonneg hx0
      have hle := easeOutExpo_le_one (e / d)
      constructor
      · nlinarith
      · nlinarith
  refine ⟨?_, hbound⟩
  intro e1 e2 he1 h12
  by_cases h2 : d ≤ e2
  · have hend : spinRotationAt s ((targetRotation n i r : ℚ) : ℝ) d e2 =
        ((targetRotation n i r : ℚ) : ℝ) := by
      rw [spinRotationAt, if_pos h2]
    rw [hend]
    exact (hbound e1 he1).2
  · have h1 : ¬ d ≤ e1 := fun hc => h2 (le_trans hc h12)
    rw [spinRotationAt, spinRotationAt, if_neg h1, if_neg h2]
    have hx12 : e1 / d ≤ e2 / d := by gcongr
    have hx2 : e2 / d < 1 := by
      rw [div_lt_one hd]
      exact not_le.mp h2
    have hm := easeOutExpo_mono hx12 hx2
    nlinarith

/-- Witness for C7 at a concrete two-entrant spin, 19 s duration, two early
frames. -/
theorem c7_spin_monotone_witness :
    2 ≤ 2 ∧ 0 < 2 ∧ (0 : ℚ) ≤ 1 / 2 ∧ (1 : ℚ) / 2 < 1 ∧ (0 : ℝ) ≤ 0 ∧
    (0 : ℝ) < 360 ∧ (0 : ℝ) < 19000 ∧
    spinRotationAt 0 ((targetRotation 2 0 (1 / 2) : ℚ) : ℝ) 19000 1000 ≤
      spinRotationAt 0 ((targetRotation 2 0 (1 / 2) : ℚ) : ℝ) 19000 2000 :=
  ⟨by norm_num, by norm_num, by norm_num, by norm_num, by norm_num, by norm_num,
    by norm_num,
    (c7_spin_monotone 2 0 (1 / 2) (by norm_num) (by norm_num) (by norm_num)
        (by norm_num) 0 19000 (by norm_num) (by norm_num) (by norm_num)).1
      1000 2000 (by norm_num) (by norm_num)⟩

end PrizeWheel
